import Mathlib

/-!
Shallow embedding of the expense-tracker view-model in `src/web/app/page.tsx`.

Modelling conventions:
* JavaScript numbers are modelled as exact rationals (`ℚ`).  `parseFloat` of the
  amount text field is modelled by an `Option ℚ` argument (`none` for `NaN`,
  i.e. non-numeric input); `x.toFixed(2)` followed by `parseFloat` is modelled
  by `round2`, rounding to the nearest multiple of 1/100 with ties away from
  zero for positive values (JavaScript `toFixed` picks the larger candidate).
* The nondeterministic id `Date.now()-Math.random()...` is passed to
  `addExpense` as an explicit `freshId` argument.
* The `localStorage` slot is modelled at the JSON level by `RawSlot`:
  a missing key, an empty string (falsy, so the load effect skips it),
  a string that is not valid JSON (`JSON.parse` throws, caught and ignored),
  or a parsed JSON document.  `JSON.stringify` of the expense array is
  `save`; the load effect is `load`.  The source casts the parsed array with
  `as Expense[]` without validating elements; `decodeExpense` is the
  structural reading of a JSON object as an `Expense` used to type that cast.
-/

namespace ExpenseTracker

/-- The `Expense` record type of `page.tsx` (lines 5–11): `note` is optional. -/
structure Expense where
  id : String
  date : String
  category : String
  amount : ℚ
  note : Option String
  deriving DecidableEq, Repr

/-- Model of `parseFloat(x.toFixed(2))`: round to 2 fractional digits. -/
def round2 (q : ℚ) : ℚ :=
  (round (q * 100) : ℤ) / 100

/-- Executable model of JavaScript `String.prototype.trim`: drop whitespace
from both ends (the inputs of interest are ASCII, where the two whitespace
notions agree). -/
def jsTrim (s : String) : String :=
  String.mk (((s.toList.dropWhile Char.isWhitespace).reverse.dropWhile
    Char.isWhitespace).reverse)

/-- Embedding of `addExpense` (lines 82–96): reject `NaN`, non-positive
amounts and an empty date; otherwise build the record (trim category,
default to "Other" when blank; round the amount; trim the note, dropping it
when blank) and prepend it to the previous collection. -/
def addExpense (freshId : String) (amount : Option ℚ) (category : String)
    (date : String) (note : String) (prev : List Expense) : List Expense :=
  match amount with
  | none => prev
  | some parsedAmount =>
    if parsedAmount ≤ 0 then prev
    else if date = "" then prev
    else
      { id := freshId
        date := date
        category := if jsTrim category = "" then "Other" else jsTrim category
        amount := round2 parsedAmount
        note := if jsTrim note = "" then none else some (jsTrim note) } :: prev

/-- Embedding of `removeExpense` (lines 98–100): keep records whose id differs. -/
def removeExpense (id : String) (prev : List Expense) : List Expense :=
  prev.filter (fun e => e.id ≠ id)

/-- Embedding of `filteredExpenses` (lines 68–71). -/
def filteredExpenses (expenses : List Expense) (filterMonth : String) :
    List Expense :=
  if filterMonth = "all" then expenses
  else expenses.filter (fun e => e.date.take 7 = filterMonth)

/-- Embedding of `total` (lines 73–75): a left fold summing amounts. -/
def total (expenses : List Expense) (filterMonth : String) : ℚ :=
  (filteredExpenses expenses filterMonth).foldl (fun sum e => sum + e.amount) 0

/-- Model of `Array.from(new Set(xs))`: keep the first occurrence of each
element, dropping later duplicates. -/
def dedupFirst : List String → List String
  | [] => []
  | x :: xs => x :: dedupFirst (xs.filter (fun y => y ≠ x))
termination_by l => l.length
decreasing_by
  simp only [List.length_cons]
  exact Nat.lt_succ_of_le (List.length_filter_le _ _)

/-- Embedding of `months` (lines 77–80): distinct `date.slice(0,7)` values over
all records, sorted ascending (JavaScript default sort) and reversed. -/
def months (expenses : List Expense) : List String :=
  ((dedupFirst (expenses.map (fun e => e.date.take 7))).mergeSort
    (fun a b => decide (a ≤ b))).reverse

/-- Model of `Map.get` on an insertion-ordered association list. -/
def mapGet : List (String × ℚ) → String → Option ℚ
  | [], _ => none
  | (c, v) :: rest, cat => if c = cat then some v else mapGet rest cat

/-- Model of `Map.set`: overwrite in place when the key is present, otherwise
append at the end (JavaScript `Map` preserves insertion order). -/
def mapSet : List (String × ℚ) → String → ℚ → List (String × ℚ)
  | [], cat, v => [(cat, v)]
  | (c, w) :: rest, cat, v =>
    if c = cat then (c, v) :: rest else (c, w) :: mapSet rest cat v

/-- The loop body of `categoryTotals` (lines 104–106):
`totals.set(e.category, (totals.get(e.category) ?? 0) + e.amount)`. -/
def totalsStep (totals : List (String × ℚ)) (e : Expense) :
    List (String × ℚ) :=
  mapSet totals e.category ((mapGet totals e.category).getD 0 + e.amount)

/-- The grouping pass of `categoryTotals`: fold the filtered records into the
insertion-ordered map. -/
def groupTotals (l : List Expense) : List (String × ℚ) :=
  l.foldl totalsStep []

/-- Embedding of `categoryTotals` (lines 102–110): group the filtered records,
then sort descending by subtotal (`(a, b) => b.amt - a.amt`). -/
def categoryTotals (expenses : List Expense) (filterMonth : String) :
    List (String × ℚ) :=
  (groupTotals (filteredExpenses expenses filterMonth)).mergeSort
    (fun a b => decide (b.2 ≤ a.2))

/-- JSON documents, with numbers as exact rationals. -/
inductive Json where
  | null
  | bool (b : Bool)
  | num (q : ℚ)
  | str (s : String)
  | arr (items : List Json)
  | obj (fields : List (String × Json))

/-- Whether a JSON document is an array (`Array.isArray`). -/
def Json.isArray : Json → Bool
  | .arr _ => true
  | _ => false

/-- Field lookup in a JSON object. -/
def jsonField (fields : List (String × Json)) (k : String) : Option Json :=
  (fields.find? (fun p => p.1 == k)).map Prod.snd

/-- Read a JSON string. -/
def Json.asStr : Json → Option String
  | .str s => some s
  | _ => none

/-- Read a JSON number. -/
def Json.asNum : Json → Option ℚ
  | .num q => some q
  | _ => none

/-- Structural reading of a JSON object as an `Expense`, typing the unchecked
`as Expense[]` cast of the load effect: the four mandatory fields must be
present with their field types, `note` is taken when present as a string. -/
def decodeExpense (j : Json) : Option Expense :=
  match j with
  | .obj fields => do
    let id ← (jsonField fields "id").bind Json.asStr
    let date ← (jsonField fields "date").bind Json.asStr
    let category ← (jsonField fields "category").bind Json.asStr
    let amount ← (jsonField fields "amount").bind Json.asNum
    pure { id := id, date := date, category := category, amount := amount
           note := (jsonField fields "note").bind Json.asStr }
  | _ => none

/-- Embedding of `JSON.stringify` on one record: `undefined` fields are
omitted, so the `note` entry is present exactly when the note is. -/
def encodeExpense (e : Expense) : Json :=
  Json.obj
    ([("id", Json.str e.id), ("date", Json.str e.date),
      ("category", Json.str e.category), ("amount", Json.num e.amount)] ++
      (match e.note with
       | none => []
       | some n => [("note", Json.str n)]))

/-- Embedding of the persist effect (lines 60–66):
`JSON.stringify(expenses)` written to the slot. -/
def save (records : List Expense) : Json :=
  Json.arr (records.map encodeExpense)

/-- Contents of the `localStorage` slot as seen by the load effect. -/
inductive RawSlot where
  | missing
  | empty
  | malformed
  | content (j : Json)

/-- Embedding of the load effect (lines 47–57): a missing or empty slot is
falsy and skipped, a parse error is caught, a non-array document is replaced
by `[]`; otherwise the array elements are read as records. -/
def load (slot : RawSlot) : List Expense :=
  match slot with
  | .missing => []
  | .empty => []
  | .malformed => []
  | .content j =>
    match j with
    | .arr items => items.filterMap decodeExpense
    | _ => []

/-- Specification-side sum of the amounts of the records in a category. -/
def totalsOf (l : List Expense) (c : String) : ℚ :=
  ((l.filter (fun e => e.category = c)).map (fun e => e.amount)).sum

/-- A sample record used to instantiate universally quantified theorems. -/
def sampleExpense : Expense :=
  { id := "a1", date := "2025-11-01", category := "Food", amount := 3
    note := none }

theorem decodeExpense_encodeExpense (e : Expense) :
    decodeExpense (encodeExpense e) = some e := by
  cases e with
  | mk id date category amount note => cases note <;> rfl

theorem filterMap_decode_map_encode (l : List Expense) :
    (l.map encodeExpense).filterMap decodeExpense = l := by
  induction l with
  | nil => rfl
  | cons e rest ih =>
    simp [List.filterMap_cons, decodeExpense_encodeExpense, ih]

/-- C1: loading after saving returns a structurally equal collection: the
persistence adapter transforms nothing.  This holds for every collection,
the empty one included. -/
theorem load_save_roundtrip (records : List Expense) :
    load (RawSlot.content (save records)) = records := by
  simp only [load, save]
  exact filterMap_decode_map_encode records

theorem addExpense_valid_eq (freshId : String) (q : ℚ)
    (category date note : String) (prev : List Expense)
    (hq : 0 < q) (hd : date ≠ "") :
    addExpense freshId (some q) category date note prev =
      { id := freshId, date := date
        category := if jsTrim category = "" then "Other" else jsTrim category
        amount := round2 q
        note := if jsTrim note = "" then none else some (jsTrim note) } :: prev := by
  simp only [addExpense]
  rw [if_neg (not_le.mpr hq), if_neg hd]

/-- C2 (failing input): the source checks `parsedAmount <= 0` before rounding
with `toFixed(2)`, so the accepted input amount 0.001 creates a record whose
stored amount is 0, violating the `amount > 0` invariant at creation. -/
theorem addExpense_breaks_positivity :
    (addExpense "id-0" (some (1 / 1000)) "Food" "2025-11-01" "" []).length
        = 1 ∧
      ∀ e ∈ addExpense "id-0" (some (1 / 1000)) "Food" "2025-11-01" "" [],
        e.amount = 0 := by
  rw [addExpense_valid_eq "id-0" (1 / 1000) "Food" "2025-11-01" "" []
    (by norm_num) (by decide)]
  refine ⟨rfl, ?_⟩
  intro e he
  rcases List.mem_singleton.mp he with rfl
  show round2 (1 / 1000) = 0
  norm_num [round2, round_eq]

/-- C4: for a valid input (parsed amount strictly positive, date nonempty),
`add` grows the collection by exactly one and the new record is prepended. -/
theorem addExpense_valid_prepends (freshId : String) (q : ℚ)
    (category date note : String) (prev : List Expense)
    (hq : 0 < q) (hd : date ≠ "") :
    (addExpense freshId (some q) category date note prev).length
        = prev.length + 1 ∧
      addExpense freshId (some q) category date note prev =
        { id := freshId, date := date
          category := if jsTrim category = "" then "Other" else jsTrim category
          amount := round2 q
          note := if jsTrim note = "" then none else some (jsTrim note) } :: prev := by
  rw [addExpense_valid_eq freshId q category date note prev hq hd]
  exact ⟨by simp, rfl⟩

theorem addExpense_valid_prepends_witness :
    (addExpense "w4" (some 5) "Food" "2025-11-01" "lunch" []).length
        = List.length ([] : List Expense) + 1 ∧
      addExpense "w4" (some 5) "Food" "2025-11-01" "lunch" [] =
        { id := "w4", date := "2025-11-01"
          category := if jsTrim "Food" = "" then "Other"
            else jsTrim "Food"
          amount := round2 5
          note := if jsTrim "lunch" = "" then none
            else some (jsTrim "lunch") } :: [] :=
  addExpense_valid_prepends "w4" 5 "Food" "2025-11-01" "lunch" []
    (by norm_num) (by decide)

/-- C5: for an invalid input (non-numeric amount, non-positive amount, or
empty date) `add` returns the previous collection unchanged; being a total
function, it signals no error. -/
theorem addExpense_invalid_unchanged (freshId : String) (amount : Option ℚ)
    (category date note : String) (prev : List Expense)
    (h : amount = none ∨ (∃ q, amount = some q ∧ q ≤ 0) ∨ date = "") :
    addExpense freshId amount category date note prev = prev := by
  rcases h with h | ⟨q, rfl, hq⟩ | h
  · subst h; rfl
  · simp [addExpense, hq]
  · cases amount with
    | none => rfl
    | some q =>
      by_cases hq : q ≤ 0
      · simp [addExpense, hq]
      · simp [addExpense, hq, h]

theorem addExpense_invalid_unchanged_witness :
    addExpense "w5" none "Food" "2025-11-01" "" [sampleExpense]
      = [sampleExpense] :=
  addExpense_invalid_unchanged "w5" none "Food" "2025-11-01" "" [sampleExpense]
    (Or.inl rfl)

/-- C6: a missing, empty, or malformed slot, and a slot holding a JSON
document that is not an array, all load as the empty collection; `load` is a
total function, so no error is raised. -/
theorem load_corrupt_empty (j : Json) (h : j.isArray = false) :
    load RawSlot.missing = [] ∧ load RawSlot.empty = [] ∧
      load RawSlot.malformed = [] ∧ load (RawSlot.content j) = [] := by
  refine ⟨rfl, rfl, rfl, ?_⟩
  cases j with
  | arr items => simp [Json.isArray] at h
  | null => rfl
  | bool b => rfl
  | num q => rfl
  | str s => rfl
  | obj fields => rfl

theorem load_corrupt_empty_witness :
    load RawSlot.missing = [] ∧ load RawSlot.empty = [] ∧
      load RawSlot.malformed = [] ∧
      load (RawSlot.content (Json.num 3)) = [] :=
  load_corrupt_empty (Json.num 3) rfl

/-- C10: removing the same id twice equals removing it once, and removing an
id that no record carries leaves the collection unchanged. -/
theorem removeExpense_idempotent (id : String) (prev : List Expense) :
    removeExpense id (removeExpense id prev) = removeExpense id prev ∧
      ((∀ e ∈ prev, e.id ≠ id) → removeExpense id prev = prev) := by
  constructor
  · simp [removeExpense, List.filter_filter]
  · intro h
    exact List.filter_eq_self.mpr (fun e he => by simpa using h e he)

theorem foldl_add_amount (l : List Expense) (c : ℚ) :
    l.foldl (fun sum e => sum + e.amount) c
      = c + (l.map (fun e => e.amount)).sum := by
  induction l generalizing c with
  | nil => simp
  | cons e rest ih => simp [ih, add_assoc]

/-- C3: with the sentinel "all" every record passes and the total is the sum
of all amounts; with any other (month) filter exactly the records whose
date's first 7 characters equal the filter pass, in the collection's order
(the filtered list is a sublist), and the total is the sum of the passing
records' amounts (0 when none pass, as the empty sum). -/
theorem filteredExpenses_total_spec (expenses : List Expense)
    (filterMonth : String) (h : filterMonth ≠ "all") :
    filteredExpenses expenses "all" = expenses ∧
      total expenses "all" = (expenses.map (fun e => e.amount)).sum ∧
      filteredExpenses expenses filterMonth
        = expenses.filter (fun e => e.date.take 7 = filterMonth) ∧
      (∀ e, e ∈ filteredExpenses expenses filterMonth ↔
        e ∈ expenses ∧ e.date.take 7 = filterMonth) ∧
      (filteredExpenses expenses filterMonth).Sublist expenses ∧
      total expenses filterMonth
        = ((filteredExpenses expenses filterMonth).map
            (fun e => e.amount)).sum := by
  have hall : filteredExpenses expenses "all" = expenses := by
    simp [filteredExpenses]
  have hne : filteredExpenses expenses filterMonth
      = expenses.filter (fun e => e.date.take 7 = filterMonth) := by
    simp [filteredExpenses, h]
  refine ⟨hall, ?_, hne, ?_, ?_, ?_⟩
  · simp [total, hall, foldl_add_amount]
  · intro e
    rw [hne, List.mem_filter]
    simp
  · rw [hne]
    exact List.filter_sublist _
  · simp [total, foldl_add_amount]

theorem filteredExpenses_total_spec_witness :
    filteredExpenses [sampleExpense] "all" = [sampleExpense] ∧
      total [sampleExpense] "all"
        = (([sampleExpense] : List Expense).map (fun e => e.amount)).sum ∧
      filteredExpenses [sampleExpense] "2025-11"
        = ([sampleExpense] : List Expense).filter
            (fun e => e.date.take 7 = "2025-11") ∧
      (∀ e, e ∈ filteredExpenses [sampleExpense] "2025-11" ↔
        e ∈ [sampleExpense] ∧ e.date.take 7 = "2025-11") ∧
      (filteredExpenses [sampleExpense] "2025-11").Sublist [sampleExpense] ∧
      total [sampleExpense] "2025-11"
        = ((filteredExpenses [sampleExpense] "2025-11").map
            (fun e => e.amount)).sum :=
  filteredExpenses_total_spec [sampleExpense] "2025-11" (by decide)

/-- C8: on a successful add the new record's category is the trimmed input
category, defaulted to the literal "Other" when the trimmed category is
empty; its amount is the parsed amount rounded to 2 digits; its note is
absent exactly when the trimmed note is empty and is the trimmed note
otherwise.  Concretely, adding amount "12.50" (parsed 25/2), category
"Food", date "2025-11-01" and an empty note yields a record with amount
25/2, category "Food" and no note. -/
theorem addExpense_normalization (freshId : String) (q : ℚ)
    (category date note : String) (prev : List Expense)
    (hq : 0 < q) (hd : date ≠ "") :
    (∃ r, addExpense freshId (some q) category date note prev = r :: prev ∧
        r.category
          = (if jsTrim category = "" then "Other" else jsTrim category) ∧
        r.amount = round2 q ∧
        (r.note = none ↔ jsTrim note = "") ∧
        (jsTrim note ≠ "" → r.note = some (jsTrim note))) ∧
      addExpense "id-1" (some (25 / 2)) "Food" "2025-11-01" "" prev
        = { id := "id-1", date := "2025-11-01", category := "Food"
            amount := 25 / 2, note := none } :: prev := by
  constructor
  · refine ⟨_, addExpense_valid_eq freshId q category date note prev hq hd,
      rfl, rfl, ?_, ?_⟩
    · show (if jsTrim note = "" then none else some (jsTrim note)) = none ↔ _
      by_cases hnote : jsTrim note = "" <;> simp [hnote]
    · intro hnote
      show (if jsTrim note = "" then none else some (jsTrim note)) = _
      simp [hnote]
  · rw [addExpense_valid_eq "id-1" (25 / 2) "Food" "2025-11-01" "" prev
      (by norm_num) (by decide)]
    have h3 : round2 (25 / 2) = 25 / 2 := by norm_num [round2, round_eq]
    rw [if_neg (show ¬ jsTrim "Food" = "" by decide),
      if_pos (show jsTrim "" = "" from rfl), h3,
      show jsTrim "Food" = "Food" from rfl]

theorem addExpense_normalization_witness :
    (∃ r, addExpense "w8" (some 7) "Food" "2025-11-01" "" [] = r :: [] ∧
        r.category
          = (if jsTrim "Food" = "" then "Other" else jsTrim "Food") ∧
        r.amount = round2 7 ∧
        (r.note = none ↔ jsTrim "" = "") ∧
        (jsTrim "" ≠ "" → r.note = some (jsTrim ""))) ∧
      addExpense "id-1" (some (25 / 2)) "Food" "2025-11-01" "" []
        = { id := "id-1", date := "2025-11-01", category := "Food"
            amount := 25 / 2, note := none } :: [] :=
  addExpense_normalization "w8" 7 "Food" "2025-11-01" "" []
    (by norm_num) (by decide)

theorem mem_dedupFirst (m : String) (l : List String) :
    m ∈ dedupFirst l ↔ m ∈ l := by
  induction l using dedupFirst.induct with
  | case1 => simp [dedupFirst]
  | case2 x xs ih =>
    simp only [dedupFirst, List.mem_cons, ih, List.mem_filter,
      decide_eq_true_eq]
    by_cases hm : m = x
    · simp [hm]
    · simp [hm]

theorem nodup_dedupFirst (l : List String) : (dedupFirst l).Nodup := by
  induction l using dedupFirst.induct with
  | case1 => simp [dedupFirst]
  | case2 x xs ih =>
    simp only [dedupFirst, List.nodup_cons]
    refine ⟨?_, ih⟩
    rw [mem_dedupFirst]
    simp

/-- C9: the available months are exactly the distinct 7-character date
prefixes taken over all records, with no duplicates, sorted
lexicographically descending. -/
theorem months_spec (expenses : List Expense) :
    (months expenses).Nodup ∧
      (∀ m, m ∈ months expenses ↔ ∃ e ∈ expenses, e.date.take 7 = m) ∧
      List.Pairwise (fun a b => b ≤ a) (months expenses) := by
  have hperm := List.mergeSort_perm
    (dedupFirst (expenses.map (fun e => e.date.take 7)))
    (fun a b => decide (a ≤ b))
  refine ⟨?_, ?_, ?_⟩
  · simp only [months, List.nodup_reverse]
    exact hperm.nodup_iff.mpr (nodup_dedupFirst _)
  · intro m
    simp only [months, List.mem_reverse, hperm.mem_iff, mem_dedupFirst,
      List.mem_map]
  · have htrans : ∀ a b c : String, decide (a ≤ b) = true →
        decide (b ≤ c) = true → decide (a ≤ c) = true := by
      intro a b c hab hbc
      simp only [decide_eq_true_eq] at hab hbc ⊢
      exact le_trans hab hbc
    have htotal : ∀ a b : String,
        (decide (a ≤ b) || decide (b ≤ a)) = true := by
      intro a b
      simp only [Bool.or_eq_true, decide_eq_true_eq]
      exact le_total a b
    have hs := List.sorted_mergeSort htrans htotal
      (dedupFirst (expenses.map (fun e => e.date.take 7)))
    simp only [months, List.pairwise_reverse]
    exact hs.imp (fun h => by simpa using h)

theorem removeExpense_idempotent_witness :
    removeExpense "x" (removeExpense "x" [sampleExpense])
        = removeExpense "x" [sampleExpense] ∧
      removeExpense "x" [sampleExpense] = [sampleExpense] :=
  ⟨(removeExpense_idempotent "x" [sampleExpense]).1,
    (removeExpense_idempotent "x" [sampleExpense]).2 (by decide)⟩

theorem mapGet_mapSet_self (t : List (String × ℚ)) (c : String) (v : ℚ) :
    mapGet (mapSet t c v) c = some v := by
  induction t with
  | nil => simp [mapSet, mapGet]
  | cons p rest ih =>
    obtain ⟨k, w⟩ := p
    by_cases hk : k = c
    · simp [mapSet, mapGet, hk]
    · simp [mapSet, mapGet, hk, ih]

theorem mapGet_mapSet_ne (t : List (String × ℚ)) (c c' : String) (v : ℚ)
    (h : c' ≠ c) : mapGet (mapSet t c v) c' = mapGet t c' := by
  induction t with
  | nil => simp [mapSet, mapGet, Ne.symm h]
  | cons p rest ih =>
    obtain ⟨k, w⟩ := p
    by_cases hk : k = c
    · subst hk
      simp [mapSet, mapGet, Ne.symm h]
    · simp only [mapSet, if_neg hk, mapGet]
      by_cases hk' : k = c'
      · simp [hk']
      · simp [hk', ih]

theorem mem_keys_mapSet (t : List (String × ℚ)) (c x : String) (v : ℚ) :
    x ∈ (mapSet t c v).map Prod.fst ↔ x ∈ t.map Prod.fst ∨ x = c := by
  induction t with
  | nil => simp [mapSet, eq_comm]
  | cons p rest ih =>
    obtain ⟨k, w⟩ := p
    by_cases hk : k = c
    · rw [show mapSet ((k, w) :: rest) c v = (k, v) :: rest
        from by rw [mapSet, if_pos hk]]
      simp only [List.map_cons, List.mem_cons]
      subst hk
      tauto
    · rw [show mapSet ((k, w) :: rest) c v = (k, w) :: mapSet rest c v
        from by rw [mapSet, if_neg hk]]
      simp only [List.map_cons, List.mem_cons, ih]
      tauto

theorem nodup_keys_mapSet (t : List (String × ℚ)) (c : String) (v : ℚ)
    (h : (t.map Prod.fst).Nodup) : ((mapSet t c v).map Prod.fst).Nodup := by
  induction t with
  | nil => simp [mapSet]
  | cons p rest ih =>
    obtain ⟨k, w⟩ := p
    simp only [List.map_cons, List.nodup_cons] at h
    by_cases hk : k = c
    · rw [show mapSet ((k, w) :: rest) c v = (k, v) :: rest
        from by rw [mapSet, if_pos hk]]
      simp only [List.map_cons, List.nodup_cons]
      exact ⟨h.1, h.2⟩
    · rw [show mapSet ((k, w) :: rest) c v = (k, w) :: mapSet rest c v
        from by rw [mapSet, if_neg hk]]
      simp only [List.map_cons, List.nodup_cons]
      refine ⟨?_, ih h.2⟩
      rw [mem_keys_mapSet]
      rintro (hmem | hmem)
      · exact h.1 hmem
      · exact hk hmem

theorem mapGet_eq_of_mem (t : List (String × ℚ)) (c : String) (v : ℚ)
    (hnd : (t.map Prod.fst).Nodup) (h : (c, v) ∈ t) : mapGet t c = some v := by
  induction t with
  | nil => simp at h
  | cons p rest ih =>
    obtain ⟨k, w⟩ := p
    simp only [List.map_cons, List.nodup_cons] at hnd
    rcases List.mem_cons.mp h with h | h
    · injection h with h1 h2
      subst h1
      subst h2
      rw [mapGet, if_pos rfl]
    · have hk : k ≠ c := by
        intro hkc
        subst hkc
        exact hnd.1 (List.mem_map.mpr ⟨(k, v), h, rfl⟩)
      rw [mapGet, if_neg hk]
      exact ih hnd.2 h

theorem mem_of_mapGet_eq (t : List (String × ℚ)) (c : String) (v : ℚ)
    (h : mapGet t c = some v) : (c, v) ∈ t := by
  induction t with
  | nil => simp [mapGet] at h
  | cons p rest ih =>
    obtain ⟨k, w⟩ := p
    by_cases hk : k = c
    · rw [mapGet, if_pos hk] at h
      injection h with h1
      subst h1
      subst hk
      exact List.mem_cons_self _ _
    · rw [mapGet, if_neg hk] at h
      exact List.mem_cons_of_mem _ (ih h)

theorem totalsOf_cons (e : Expense) (l : List Expense) (c : String) :
    totalsOf (e :: l) c
      = (if e.category = c then e.amount else 0) + totalsOf l c := by
  by_cases hc : e.category = c
  · simp [totalsOf, List.filter_cons, hc]
  · simp [totalsOf, List.filter_cons, hc]

theorem mapGet_foldl_totalsStep (l : List Expense) (acc : List (String × ℚ))
    (c : String) :
    (mapGet (l.foldl totalsStep acc) c).getD 0
      = (mapGet acc c).getD 0 + totalsOf l c := by
  induction l generalizing acc with
  | nil => simp [totalsOf]
  | cons e rest ih =>
    rw [List.foldl_cons, ih, totalsOf_cons]
    by_cases hc : e.category = c
    · rw [if_pos hc, totalsStep, hc, mapGet_mapSet_self]
      simp [add_assoc]
    · rw [if_neg hc, zero_add, totalsStep,
        mapGet_mapSet_ne _ _ _ _ (fun hcc => hc hcc.symm)]

theorem mem_keys_foldl_totalsStep (l : List Expense) (acc : List (String × ℚ))
    (c : String) :
    c ∈ (l.foldl totalsStep acc).map Prod.fst
      ↔ c ∈ acc.map Prod.fst ∨ ∃ e ∈ l, e.category = c := by
  induction l generalizing acc with
  | nil => simp
  | cons e rest ih =>
    rw [List.foldl_cons, ih]
    show c ∈ (mapSet acc e.category _).map Prod.fst ∨ _ ↔ _
    rw [mem_keys_mapSet]
    constructor
    · rintro ((h | h) | h)
      · exact Or.inl h
      · exact Or.inr ⟨e, List.mem_cons_self _ _, h.symm⟩
      · obtain ⟨x, hx, hxc⟩ := h
        exact Or.inr ⟨x, List.mem_cons_of_mem _ hx, hxc⟩
    · rintro (h | ⟨x, hx, hxc⟩)
      · exact Or.inl (Or.inl h)
      · rcases List.mem_cons.mp hx with rfl | hx
        · exact Or.inl (Or.inr hxc.symm)
        · exact Or.inr ⟨x, hx, hxc⟩

theorem nodup_keys_foldl_totalsStep (l : List Expense)
    (acc : List (String × ℚ)) (h : (acc.map Prod.fst).Nodup) :
    ((l.foldl totalsStep acc).map Prod.fst).Nodup := by
  induction l generalizing acc with
  | nil => exact h
  | cons e rest ih =>
    rw [List.foldl_cons]
    exact ih _ (nodup_keys_mapSet _ _ _ h)

theorem nodup_keys_groupTotals (l : List Expense) :
    ((groupTotals l).map Prod.fst).Nodup :=
  nodup_keys_foldl_totalsStep l [] (by simp)

theorem groupTotals_value (l : List Expense) (p : String × ℚ)
    (hp : p ∈ groupTotals l) : p.2 = totalsOf l p.1 := by
  obtain ⟨c, v⟩ := p
  have hget : mapGet (groupTotals l) c = some v :=
    mapGet_eq_of_mem _ c v (nodup_keys_groupTotals l) hp
  have hval := mapGet_foldl_totalsStep l [] c
  rw [groupTotals] at hget
  rw [hget] at hval
  simpa [mapGet] using hval

theorem groupTotals_keys (l : List Expense) (c : String) :
    (∃ v, (c, v) ∈ groupTotals l) ↔ ∃ e ∈ l, e.category = c := by
  constructor
  · rintro ⟨v, hv⟩
    have hk : c ∈ (groupTotals l).map Prod.fst :=
      List.mem_map.mpr ⟨(c, v), hv, rfl⟩
    rw [groupTotals, mem_keys_foldl_totalsStep] at hk
    simpa using hk
  · intro h
    have hk : c ∈ (groupTotals l).map Prod.fst := by
      rw [groupTotals, mem_keys_foldl_totalsStep]
      exact Or.inr h
    obtain ⟨p, hp, hfst⟩ := List.mem_map.mp hk
    obtain ⟨k, v⟩ := p
    cases hfst
    exact ⟨v, hp⟩

/-- C7: for every collection and filter, each entry of the category ranking
pairs a category with the sum of the amounts of the filtered records in that
category, the categories listed are exactly those occurring among the
filtered records, each listed once, and the ranking is sorted non-increasing
by subtotal. -/
theorem categoryTotals_spec (expenses : List Expense) (filterMonth : String) :
    List.Pairwise (fun a b : String × ℚ => b.2 ≤ a.2)
        (categoryTotals expenses filterMonth) ∧
      (∀ p ∈ categoryTotals expenses filterMonth,
        p.2 = totalsOf (filteredExpenses expenses filterMonth) p.1) ∧
      (∀ c, (∃ v, (c, v) ∈ categoryTotals expenses filterMonth) ↔
        ∃ e ∈ filteredExpenses expenses filterMonth, e.category = c) ∧
      ((categoryTotals expenses filterMonth).map Prod.fst).Nodup := by
  have hperm := List.mergeSort_perm
    (groupTotals (filteredExpenses expenses filterMonth))
    (fun a b => decide (b.2 ≤ a.2))
  refine ⟨?_, ?_, ?_, ?_⟩
  · have htrans : ∀ a b c : String × ℚ, decide (b.2 ≤ a.2) = true →
        decide (c.2 ≤ b.2) = true → decide (c.2 ≤ a.2) = true := by
      intro a b c hab hbc
      simp only [decide_eq_true_eq] at hab hbc ⊢
      exact le_trans hbc hab
    have htotal : ∀ a b : String × ℚ,
        (decide (b.2 ≤ a.2) || decide (a.2 ≤ b.2)) = true := by
      intro a b
      simp only [Bool.or_eq_true, decide_eq_true_eq]
      exact le_total b.2 a.2
    have hs := List.sorted_mergeSort htrans htotal
      (groupTotals (filteredExpenses expenses filterMonth))
    exact hs.imp (fun h => by simpa using h)
  · intro p hp
    exact groupTotals_value _ p (hperm.mem_iff.mp hp)
  · intro c
    rw [show (∃ v, (c, v) ∈ categoryTotals expenses filterMonth) ↔
        ∃ v, (c, v) ∈ groupTotals (filteredExpenses expenses filterMonth)
      from exists_congr (fun v => hperm.mem_iff)]
    exact groupTotals_keys _ c
  · exact (hperm.map Prod.fst).nodup_iff.mpr
      (nodup_keys_groupTotals _)

end ExpenseTracker
